import Mathlib

/-
Verification of the aws-c-auth XML scanner (source/xml_parser.c) against its
natural-language specification.

The parser state and the byte-cursor collaborators from aws-c-common are given
a shallow embedding over `List Char`:

* `parser->doc` (an `aws_byte_cursor` into the caller's buffer) is modelled as
  the remaining suffix of the document, a `List Char`.  All cursor advances in
  the C code move the cursor forward only, so the cursor is always a suffix of
  the original buffer; pointer differences in the C code become list indices.
* `memchr` is modelled by `memchr` below, `aws_byte_cursor_advance` by
  `advanceCursor` (a no-op when the requested amount exceeds the remaining
  length, exactly as in aws-c-common), `aws_byte_cursor_split_on_char` into a
  static list by `splitOnChar` (failing when the piece count exceeds the
  capacity), `aws_byte_cursor_trim_pred` by `trimPredBoth`, and
  `aws_byte_cursor_find_exact` by `firstOccur` (first-occurrence substring
  search).
* Error returns (`aws_raise_error` + `AWS_OP_ERR`) are modelled with `Option`
  or with a `Bool` success flag; nothing is thrown.
* Handler callbacks are modelled by the inductive `Handler`, covering the
  supported re-entrancy: returning a constant, calling
  `aws_xml_node_as_body` on the received node, or calling
  `aws_xml_node_traverse` on it with a child handler.
* Traversal loops carry an explicit fuel argument; the callers supply
  `doc.length + 1`, which dominates the number of loop iterations because
  every iteration consumes at least the closing `>` of one tag.
-/

/-- Model of `memchr` over the remaining document bytes: the index of the
first occurrence of `c`, if any. -/
def memchr (c : Char) : List Char → Option Nat
  | [] => none
  | x :: t => if x = c then some 0 else (memchr c t).map (· + 1)

/-- Model of `aws_byte_cursor_advance`: drop `amt` bytes from the front; when
`amt` exceeds the remaining length the advance fails and the cursor is left
unchanged (aws-c-common returns a zeroed cursor, which the parser ignores). -/
def advanceCursor (doc : List Char) (amt : Nat) : List Char :=
  if amt ≤ doc.length then doc.drop amt else doc

/-- All pieces of `l` split on the character `c`; one piece per delimiter gap,
empty pieces included, as produced by `aws_byte_cursor_next_split`. -/
def splitAll (c : Char) : List Char → List (List Char)
  | [] => [[]]
  | x :: t =>
    if x = c then [] :: splitAll c t
    else
      match splitAll c t with
      | [] => [[x]]
      | h :: r => (x :: h) :: r

/-- Model of `aws_byte_cursor_split_on_char` into a static `aws_array_list` of
capacity `cap`: the split fails (push_back on a full static list) exactly when
the number of pieces exceeds the capacity. -/
def splitOnChar (c : Char) (l : List Char) (cap : Nat) : Option (List (List Char)) :=
  let s := splitAll c l
  if s.length ≤ cap then some s else none

/-- Model of `aws_array_list_push_back` on a static list whose error return is
ignored: appends only while below capacity, silently drops otherwise. -/
def pushCapped {α : Type} (acc : List α) (a : α) (cap : Nat) : List α :=
  if acc.length < cap then acc ++ [a] else acc

/-- s_trim_quotes_fn from the source: true exactly on the double-quote byte. -/
def s_trim_quotes_fn (c : Char) : Bool := c = '"'

/-- Model of `aws_byte_cursor_trim_pred`: trim bytes satisfying the predicate
from both ends. -/
def trimPredBoth (q : Char → Bool) (l : List Char) : List Char :=
  ((l.dropWhile q).reverse.dropWhile q).reverse

/-- Attribute values are trimmed with `s_trim_quotes_fn` (double quotes only). -/
def trimQuotes (l : List Char) : List Char := trimPredBoth s_trim_quotes_fn l

/-- Model of `aws_byte_cursor_find_exact`: index of the first occurrence of
`pat` as a contiguous substring of the haystack, if any. -/
def firstOccur (pat : List Char) : List Char → Option Nat
  | [] => if pat = [] then some 0 else none
  | c :: t =>
    if pat = (c :: t).take pat.length then some 0
    else (firstOccur pat t).map (· + 1)

/-- struct aws_xml_attribute: name and value slices. -/
structure XmlAttribute where
  name : List Char
  value : List Char
deriving DecidableEq, Repr

/-- A handler callback (`aws_xml_parser_on_node_encountered_fn` plus its
user_data closure), modelled by the supported behaviours: return a constant,
call `aws_xml_node_as_body` on the node it was given, or call
`aws_xml_node_traverse` on that node with a child handler (the only supported
re-entrancy per the spec). -/
inductive Handler where
  | ret (b : Bool)
  | asBody (b : Bool)
  | descend (child : Handler)
deriving DecidableEq, Repr

/-- struct aws_xml_parser: the remaining document cursor and the callback
stack (`cb_stack`, top of stack at the head). The allocator and the scratch
arrays carry no semantic state and are omitted. -/
structure Parser where
  doc : List Char
  cbStack : List Handler
deriving DecidableEq, Repr

/-- struct aws_xml_node: name, attributes, and the `doc_at_body` cursor
snapshot (the parser document at the moment the node's opening tag was
consumed). -/
structure XmlNode where
  name : List Char
  attributes : List XmlAttribute
  docAtBody : List Char
deriving DecidableEq, Repr

/-- Result of an operation that can invoke handlers: the success flag
(`AWS_OP_SUCCESS` = `true`), the final parser state, and the trace of handler
invocations (the name of the node passed to each invocation, in order). -/
structure Outcome where
  ok : Bool
  parser : Parser
  trace : List (List Char)
deriving DecidableEq, Repr

/-- Cursor advance lifted to the parser, as the C code mutates parser->doc. -/
def advanceDoc (p : Parser) (amt : Nat) : Parser :=
  { p with doc := advanceCursor p.doc amt }

/-- Push onto `cb_stack` (aws_array_list_push_back; the dynamic-list push in
`aws_xml_node_traverse` cannot fail in the model). -/
def pushStack (h : Handler) (p : Parser) : Parser :=
  { p with cbStack := h :: p.cbStack }

/-- Pop `cb_stack` (aws_array_list_pop_back). -/
def popStack (p : Parser) : Parser :=
  { p with cbStack := p.cbStack.tail }

/-- Modelled from the spec: the declaration split scratch holds 10 tokens
("fixed capacity, e.g. 10 tokens — name + up to 9 attributes"); the array
size lives in the private header, which is not part of src/. -/
def splitCap : Nat := 10

/-- Modelled from the spec: the attribute scratch array bound. At most 9
attribute tokens can exist (splitCap − 1), so any bound ≥ 9 is equivalent. -/
def attrCap : Nat := 10

/-- The NUL byte used as the out-of-bounds read default for the one-byte
lookahead `*(ptr + 1)` (undefined behaviour in C, never reached on the inputs
the claims are about). -/
def NULLC : Char := Char.ofNat 0

/-- 2^64, for the size_t wrap of negative pointer differences. -/
def U64 : Nat := 18446744073709551616

/-- s_load_node_decl: split the declaration body on spaces; the first token is
the node name; each later token is split once on `=`; when that split succeeds
(at most one `=` in the token) an attribute is pushed whose value is the
quote-trimmed second piece (the zeroed scratch, i.e. the empty slice, when the
token has no `=`). Returns the name and attribute list, or `none` for a
malformed declaration. The parser argument of the C function only supplies
scratch storage and is omitted. -/
def s_load_node_decl (declBody : List Char) : Option (List Char × List XmlAttribute) :=
  match splitOnChar ' ' declBody splitCap with
  | none => none
  | some splits =>
    if splits.length < 1 then none
    else
      some (splits.headD [],
        if 1 < splits.length then
          (splits.drop 1).foldl
            (fun acc tok =>
              match splitOnChar '=' tok 2 with
              | none => acc
              | some pair =>
                pushCapped acc ⟨pair.headD [], trimQuotes (pair.getD 1 [])⟩ attrCap)
            []
        else [])

/-- The closing-tag search target `</name>` built in the 259-byte cmp buffer. -/
def closingTagOf (name : List Char) : List Char := '<' :: '/' :: (name ++ ['>'])

/-- s_advance_to_closing_tag: build `</name>` (length `name.length + 3`),
fail when it cannot fit the node's remaining body or the 259-byte buffer,
search `node->doc_at_body` for its first occurrence, advance `parser->doc` by
the match offset plus the tag length, and report the bytes before the match
as the body. `none` models the MalformedInput error return. -/
def s_advance_to_closing_tag (p : Parser) (node : XmlNode) : Option (Parser × List Char) :=
  if node.name.length + 3 > node.docAtBody.length then none
  else if 259 < node.name.length + 3 then none
  else
    match firstOccur (closingTagOf node.name) node.docAtBody with
    | none => none
    | some i => some (advanceDoc p (i + (node.name.length + 3)), node.docAtBody.take i)

/-- aws_xml_node_as_body: a direct wrapper around s_advance_to_closing_tag. -/
def aws_xml_node_as_body (p : Parser) (n : XmlNode) : Option (Parser × List Char) :=
  s_advance_to_closing_tag p n

/-- The while loop of aws_xml_node_traverse: find the next `<`/`>` pair, stop
(popping the stack) when the byte after `<` is `/`, otherwise decode the
declaration, invoke the handler (via `invoke`), and on a true return advance
with s_advance_to_closing_tag applied to `parent` — the node the C code passes
at line 251 — before looping. Fuel bounds the iteration count; callers pass
`doc.length + 1`. -/
def traverseLoop (invoke : Parser → XmlNode → Parser × Bool × List (List Char))
    (parent : XmlNode) : Nat → Parser → Outcome
  | 0, p => ⟨false, p, []⟩
  | fuel + 1, p =>
    match memchr '<' p.doc with
    | none => ⟨false, p, []⟩
    | some nextRel =>
      match memchr '>' p.doc with
      | none => ⟨false, p, []⟩
      | some endRel =>
        let nodeNameLen := if nextRel ≤ endRel then endRel - nextRel else U64 - (nextRel - endRel)
        let p1 := advanceDoc p (endRel + 1)
        if p.doc.getD (nextRel + 1) NULLC = '/' then ⟨true, popStack p1, []⟩
        else
          let declBody := (p.doc.drop (nextRel + 1)).take (nodeNameLen - 1)
          match s_load_node_decl declBody with
          | none => ⟨false, p1, []⟩
          | some (nm, ats) =>
            let childNode : XmlNode := ⟨nm, ats, p1.doc⟩
            let r := invoke p1 childNode
            if r.2.1 then
              match s_advance_to_closing_tag r.1 parent with
              | none => ⟨false, r.1, nm :: r.2.2⟩
              | some (p2, _) =>
                let rest := traverseLoop invoke parent fuel p2
                ⟨rest.ok, rest.parser, (nm :: r.2.2) ++ rest.trace⟩
            else ⟨true, r.1, nm :: r.2.2⟩

/-- Interpretation of a handler invocation: the final parser, the returned
boolean, and the trace of nested handler invocations it performed. -/
def interpHandler : Handler → Parser → XmlNode → Parser × Bool × List (List Char)
  | .ret b, p, _ => (p, b, [])
  | .asBody b, p, n =>
    match aws_xml_node_as_body p n with
    | none => (p, false, [])
    | some (p1, _) => (p1, b, [])
  | .descend c, p, n =>
    let p1 := pushStack c p
    let o := traverseLoop (interpHandler c) n (p1.doc.length + 1) p1
    (o.parser, o.ok, o.trace)

/-- aws_xml_node_traverse: push the handler onto the callback stack and walk
the children of `node` with the loop. -/
def aws_xml_node_traverse (p : Parser) (node : XmlNode) (h : Handler) : Outcome :=
  let p1 := pushStack h p
  traverseLoop (interpHandler h) node (p1.doc.length + 1) p1

/-- s_node_next_sibling: find the next `<` (clean success when none remains),
advance to it, find the matching `>` (error when none), consume through it,
decode the declaration, and invoke the handler on top of the callback stack,
discarding its boolean return. There is no check for a leading `/`. The
empty-stack branch is unreachable from `aws_xml_parser_parse`, which always
pushes first (the C code would read a zeroed callback there). -/
def s_node_next_sibling (p : Parser) : Outcome :=
  match memchr '<' p.doc with
  | none => ⟨true, p, []⟩
  | some nextRel =>
    let p1 := advanceDoc p nextRel
    match memchr '>' p1.doc with
    | none => ⟨false, p1, []⟩
    | some endRel =>
      let p2 := advanceDoc p1 (endRel + 1)
      let declBody := (p1.doc.drop 1).take (endRel - 1)
      match s_load_node_decl declBody with
      | none => ⟨false, p2, []⟩
      | some (nm, ats) =>
        let node : XmlNode := ⟨nm, ats, p2.doc⟩
        match p2.cbStack with
        | [] => ⟨false, p2, []⟩
        | h :: _ =>
          let r := interpHandler h p2 node
          ⟨true, r.1, nm :: r.2.2⟩

/-- The preamble-burning while loop of aws_xml_parser_parse: while document
bytes remain, find `<` and `>` (errors when missing), advance to the `<`;
when the byte after it is `?` or `!` consume through the `>` found earlier
(a size_t-wrapped, hence no-op, advance when that `>` precedes the `<`) and
continue, otherwise stop. Returns the parser and a success flag. -/
def skipPreamble : Nat → Parser → Parser × Bool
  | 0, p => (p, false)
  | fuel + 1, p =>
    if p.doc = [] then (p, true)
    else
      match memchr '<' p.doc with
      | none => (p, false)
      | some startRel =>
        match memchr '>' p.doc with
        | none => (p, false)
        | some locRel =>
          let p1 := advanceDoc p startRel
          if p1.doc.getD 1 NULLC = '?' ∨ p1.doc.getD 1 NULLC = '!' then
            let p2 := if startRel ≤ locRel then advanceDoc p1 (locRel - startRel + 1) else p1
            skipPreamble fuel p2
          else (p1, true)

/-- aws_xml_parser_parse: clear the callback stack, burn the preamble, push
the root handler, and run the root-level sibling walk. -/
def aws_xml_parser_parse (p : Parser) (h : Handler) : Outcome :=
  let p0 : Parser := { p with cbStack := [] }
  let r := skipPreamble (p0.doc.length + 1) p0
  if r.2 then s_node_next_sibling (pushStack h r.1)
  else ⟨false, r.1, []⟩

/-- aws_xml_parser_init: zeroed state bound to the caller's document. -/
def aws_xml_parser_init (doc : List Char) : Parser := ⟨doc, []⟩

/-- The handler-observable part of an outcome: the success flag, the final
document cursor, and the invocation trace (everything except the callback
stack, which necessarily stores the handler value itself). -/
def obsOutcome (o : Outcome) : Bool × List Char × List (List Char) :=
  (o.ok, o.parser.doc, o.trace)

/-- The single-quote character, written via its code point. -/
def squote : Char := Char.ofNat 39

theorem memchr_append_of_not_mem (a : Char) (pre r : List Char) (h : a ∉ pre) :
    memchr a (pre ++ a :: r) = some pre.length := by
  induction pre with
  | nil => simp [memchr]
  | cons x t ih =>
    have hx : ¬ x = a := fun e => h (e ▸ List.mem_cons_self x t)
    simp [memchr, hx, ih (fun hm => h (List.mem_cons_of_mem _ hm))]

theorem splitAll_of_not_mem (c : Char) (l : List Char) (h : c ∉ l) : splitAll c l = [l] := by
  induction l with
  | nil => simp [splitAll]
  | cons x t ih =>
    have hx : ¬ x = c := fun e => h (e ▸ List.mem_cons_self x t)
    simp [splitAll, hx, ih (fun hm => h (List.mem_cons_of_mem _ hm))]

theorem splitAll_append_of_not_mem (c : Char) (a b : List Char) (h : c ∉ a) :
    splitAll c (a ++ c :: b) = a :: splitAll c b := by
  induction a with
  | nil => simp [splitAll]
  | cons x t ih =>
    have hx : ¬ x = c := fun e => h (e ▸ List.mem_cons_self x t)
    simp [splitAll, hx, ih (fun hm => h (List.mem_cons_of_mem _ hm))]

theorem firstOccur_some_matches {pat hay : List Char} {i : Nat} :
    firstOccur pat hay = some i → pat = (hay.drop i).take pat.length := by
  induction hay generalizing i with
  | nil =>
    intro h
    by_cases hp : pat = [] <;> simp [firstOccur, hp] at h
    subst h
    simp [hp]
  | cons c t ih =>
    intro h
    simp only [firstOccur] at h
    split at h
    · next heq =>
      cases h
      simpa using heq
    · next hne =>
      obtain ⟨j, hj, rfl⟩ := Option.map_eq_some'.mp h
      simpa [List.drop] using ih hj

theorem firstOccur_some_le {pat hay : List Char} {i : Nat} (h : firstOccur pat hay = some i) :
    pat.length ≤ hay.length := by
  have hm := congrArg List.length (firstOccur_some_matches h)
  simp only [List.length_take, List.length_drop] at hm
  calc pat.length = min pat.length (hay.length - i) := hm
    _ ≤ hay.length - i := min_le_right _ _
    _ ≤ hay.length := Nat.sub_le _ _

theorem firstOccur_some_min {pat hay : List Char} {i : Nat} :
    firstOccur pat hay = some i → ∀ j, j < i → pat ≠ (hay.drop j).take pat.length := by
  induction hay generalizing i with
  | nil =>
    intro h j hj
    by_cases hp : pat = [] <;> simp [firstOccur, hp] at h
    omega
  | cons c t ih =>
    intro h j hj
    simp only [firstOccur] at h
    split at h
    · cases h; omega
    · next hne =>
      obtain ⟨k, hk, rfl⟩ := Option.map_eq_some'.mp h
      cases j with
      | zero => simpa using hne
      | succ j' => simpa [List.drop] using ih hk j' (by omega)

theorem firstOccur_sandwich (pt text rest : List Char) (h : '<' ∉ text) :
    firstOccur ('<' :: pt) (text ++ '<' :: (pt ++ rest)) = some text.length := by
  induction text with
  | nil =>
    simp only [List.nil_append, firstOccur]
    rw [if_pos]
    · rfl
    · show '<' :: pt = ('<' :: (pt ++ rest)).take ('<' :: pt).length
      simp only [List.length_cons, List.take_succ_cons, List.cons.injEq, true_and]
      rw [List.take_left]
  | cons x t ih =>
    have hx : ¬ ('<' :: pt) = ((x :: (t ++ '<' :: (pt ++ rest))).take ('<' :: pt).length) := by
      intro e
      simp only [List.length_cons, List.take_succ_cons, List.cons.injEq] at e
      exact h (e.1 ▸ List.mem_cons_self x t)
    have iht := ih (fun hm => h (List.mem_cons_of_mem _ hm))
    simp only [List.cons_append, firstOccur, List.append_eq]
    rw [if_neg hx, iht]
    rfl

/-- C1: the claim says the post-handler advance applies the closing-tag
matcher with the child node just decoded (searching for the child's closing
tag). The code at line 251 of xml_parser.c applies it with the parent `node`
instead. On `<p><a>x</a><b>y</b></p>`, with the cursor just past `<a>` and
the handler for child `a` having returned true: the code's call (parent node
`p`) searches the parent's body snapshot for `</p>` and its frame-mismatched
advance is a no-op, leaving the cursor where it was (first conjunct); the
call the claim describes (child node `a`) would advance past `</a>` to the
next sibling (second conjunct); consequently the full traversal visits only
`a`, never `b`, and stops inside the parent with success (third conjunct). -/
theorem C1_matcher_applied_with_parent_node :
    s_advance_to_closing_tag ⟨"x</a><b>y</b></p>".data, [.ret true]⟩
        ⟨['p'], [], "<a>x</a><b>y</b></p>".data⟩ =
      some (⟨"x</a><b>y</b></p>".data, [.ret true]⟩, "<a>x</a><b>y</b>".data) ∧
    s_advance_to_closing_tag ⟨"x</a><b>y</b></p>".data, [.ret true]⟩
        ⟨['a'], [], "x</a><b>y</b></p>".data⟩ =
      some (⟨"<b>y</b></p>".data, [.ret true]⟩, "x".data) ∧
    aws_xml_node_traverse ⟨"<a>x</a><b>y</b></p>".data, []⟩
        ⟨['p'], [], "<a>x</a><b>y</b></p>".data⟩ (.ret true) =
      ⟨true, ⟨"<b>y</b></p>".data, []⟩, [['a']]⟩ :=
  ⟨rfl, rfl, rfl⟩

/-- C2: the claim says a handler that always returns true is invoked exactly
N times for N well-formed siblings. The document inside the parent `p` here
is `<a>x</a><b>y</b>` — two well-formed siblings — yet the traversal invokes
the handler exactly once (only for `a`) and returns success, because the
line-251 slip (see C1) makes the walk stop before `b`. -/
theorem C2_two_siblings_handler_invoked_once :
    (aws_xml_node_traverse ⟨"<a>x</a><b>y</b></p>".data, []⟩
        ⟨['p'], [], "<a>x</a><b>y</b></p>".data⟩ (.ret true)).trace = [['a']] ∧
    (aws_xml_node_traverse ⟨"<a>x</a><b>y</b></p>".data, []⟩
        ⟨['p'], [], "<a>x</a><b>y</b></p>".data⟩ (.ret true)).ok = true :=
  ⟨rfl, rfl⟩

/-- C5 counterexample: the claim says a declaration token without `=` is
silently dropped and contributes no attribute entry. On the declaration
`a b` the code pushes the attribute `b` with an empty value (the zeroed
second scratch slot), so the attribute list is not empty. -/
theorem C5_token_without_eq_not_dropped :
    s_load_node_decl "a b".data = some (['a'], [⟨['b'], []⟩]) ∧
    some (['a'], ([] : List XmlAttribute)) ≠ s_load_node_decl "a b".data :=
  ⟨rfl, by decide⟩

/-- C6 counterexample: the claim says surrounding single-quote characters are
trimmed from attribute values. `s_trim_quotes_fn` only matches the
double-quote byte, so the declaration `a k='v'` yields the value `'v'` with
the single quotes kept, not `v`. -/
theorem C6_single_quotes_not_trimmed :
    s_load_node_decl "a k='v'".data = some (['a'], [⟨['k'], "'v'".data⟩]) ∧
    "'v'".data ≠ ['v'] :=
  ⟨rfl, by decide⟩

/-- C7 counterexample: the claim says that when the byte after `<` is `/` the
single-level sibling walk stops without decoding the tag and without invoking
the handler. `s_node_next_sibling` has no such check: on `</a>` it decodes a
node named `/a` and invokes the handler on it (trace nonempty). -/
theorem C7_closing_tag_decoded_at_root_walk :
    s_node_next_sibling ⟨"</a>".data, [.ret true]⟩ =
      ⟨true, ⟨[], [.ret true]⟩, [['/', 'a']]⟩ ∧
    ([['/', 'a']] : List (List Char)) ≠ [] :=
  ⟨rfl, by decide⟩

theorem dropWhile_quotes_eq_self {l : List Char}
    (h : ∀ x ∈ l, s_trim_quotes_fn x = false) : l.dropWhile s_trim_quotes_fn = l := by
  cases l with
  | nil => rfl
  | cons x t => simp [List.dropWhile_cons, h x (List.mem_cons_self x t)]

/-- C5 amended: a declaration token after the first that contains no `=` is
not dropped; it contributes an attribute entry whose name is the whole token
and whose value is empty (the zeroed second scratch slot), with no error
raised; the declaration name and well-formed `name=value` tokens are
processed normally alongside it. -/
theorem C5_amended_token_without_eq_empty_value :
    (∀ (nm t : List Char), ' ' ∉ nm → ' ' ∉ t → '=' ∉ t →
        s_load_node_decl (nm ++ ' ' :: t) = some (nm, [⟨t, []⟩])) ∧
    (∀ (nm k v : List Char), ' ' ∉ nm → ' ' ∉ k → ' ' ∉ v → '=' ∉ k → '=' ∉ v →
        s_load_node_decl (nm ++ ' ' :: (k ++ '=' :: v)) =
          some (nm, [⟨k, trimQuotes v⟩])) := by
  constructor
  · intro nm t h1 h2 h3
    simp [s_load_node_decl, splitOnChar, splitAll_append_of_not_mem ' ' nm t h1,
      splitAll_of_not_mem ' ' t h2, splitAll_of_not_mem '=' t h3,
      splitCap, attrCap, pushCapped, trimQuotes, trimPredBoth]
  · intro nm k v h1 h2 h3 h4 h5
    have hsp : ' ' ∉ k ++ '=' :: v := by
      intro hm
      rcases List.mem_append.mp hm with hm1 | hm2
      · exact h2 hm1
      · rcases List.mem_cons.mp hm2 with hm3 | hm4
        · exact absurd hm3 (by decide)
        · exact h3 hm4
    simp [s_load_node_decl, splitOnChar,
      splitAll_append_of_not_mem ' ' nm (k ++ '=' :: v) h1,
      splitAll_of_not_mem ' ' (k ++ '=' :: v) hsp,
      splitAll_append_of_not_mem '=' k v h4,
      splitAll_of_not_mem '=' v h5,
      splitCap, attrCap, pushCapped]

theorem C5_amended_token_without_eq_empty_value_w :
    (' ' ∉ (['b'] : List Char)) ∧
    s_load_node_decl (['a'] ++ ' ' :: ['b']) = some (['a'], [⟨['b'], []⟩]) :=
  ⟨by decide,
   C5_amended_token_without_eq_empty_value.1 ['a'] ['b']
     (by decide) (by decide) (by decide)⟩

/-- C6 amended: attribute values are delivered with surrounding double-quote
`"` characters trimmed; single-quote `'` delimiters are not trimmed and are
delivered as part of the value (s_trim_quotes_fn matches only `"`). The decl
`a k="v"` yields attribute `k` mapped to `v` without quotes. -/
theorem C6_amended_double_quote_trim_only :
    (∀ w : List Char, '"' ∉ w → trimQuotes ('"' :: (w ++ ['"'])) = w) ∧
    (∀ w : List Char, trimQuotes (squote :: (w ++ [squote])) = squote :: (w ++ [squote])) ∧
    s_load_node_decl "a k=\"v\"".data = some (['a'], [⟨['k'], ['v']⟩]) := by
  refine ⟨?_, ?_, rfl⟩
  · intro w hw
    have hq : ∀ x ∈ w, s_trim_quotes_fn x = false := by
      intro x hx
      simp only [s_trim_quotes_fn, decide_eq_false_iff_not]
      exact fun e => hw (e ▸ hx)
    cases w with
    | nil => rfl
    | cons x t =>
      have hx : s_trim_quotes_fn x = false := hq x (List.mem_cons_self x t)
      have hall : ∀ y ∈ (t.reverse ++ [x]), s_trim_quotes_fn y = false := by
        intro y hy
        rcases List.mem_append.mp hy with hy1 | hy2
        · exact hq y (List.mem_cons_of_mem _ (List.mem_reverse.mp hy1))
        · have he : y = x := by simpa using hy2
          exact he ▸ hx
      have hqq : s_trim_quotes_fn '"' = true := rfl
      simp [trimQuotes, trimPredBoth, List.dropWhile_cons, hx, hqq,
        List.reverse_append, List.reverse_cons, dropWhile_quotes_eq_self hall]
  · intro w
    have hsq : s_trim_quotes_fn squote = false := by decide
    simp [trimQuotes, trimPredBoth, List.dropWhile_cons, hsq,
      List.reverse_append, List.reverse_cons]

theorem C6_amended_double_quote_trim_only_w :
    ('"' ∉ (['v'] : List Char)) ∧ trimQuotes ('"' :: (['v'] ++ ['"'])) = ['v'] :=
  ⟨by decide, C6_amended_double_quote_trim_only.1 ['v'] (by decide)⟩

/-- C7 amended: in the single-level sibling walk, when the first byte after
the located `<` is `/`, the walk does not stop early: the tag is decoded as a
node whose name begins with `/` and the handler is invoked on it; the
bracketed span is skipped over and success is returned. -/
theorem C7_amended_root_walk_decodes_closing_tag :
    ∀ (t rest : List Char) (b : Bool), '>' ∉ t → ' ' ∉ t →
      s_node_next_sibling ⟨'<' :: '/' :: (t ++ '>' :: rest), [.ret b]⟩ =
        ⟨true, ⟨rest, [.ret b]⟩, [('/' :: t)]⟩ := by
  intro t rest b hgt hsp
  have hpre : '>' ∉ ('<' :: '/' :: t) := by
    intro hm
    rcases List.mem_cons.mp hm with h1 | hm2
    · exact absurd h1 (by decide)
    · rcases List.mem_cons.mp hm2 with h2 | h3
      · exact absurd h2 (by decide)
      · exact hgt h3
  have hm1 : memchr '<' ('<' :: '/' :: (t ++ '>' :: rest)) = some 0 := by
    simp [memchr]
  have hm2 : memchr '>' ('<' :: '/' :: (t ++ '>' :: rest)) = some (t.length + 2) :=
    memchr_append_of_not_mem '>' ('<' :: '/' :: t) rest hpre
  have hcond : t.length + 2 + 1 ≤ ('<' :: '/' :: (t ++ '>' :: rest)).length := by
    simp [List.length_cons, List.length_append]
  have hdrop : ('<' :: '/' :: (t ++ '>' :: rest)).drop (t.length + 2 + 1) = rest := by
    show (('<' :: '/' :: t) ++ '>' :: rest).drop (t.length + 2 + 1) = rest
    rw [show t.length + 2 + 1 = ('<' :: '/' :: t).length + 1 from rfl, List.drop_append 1]
    rfl
  have htake : (('/' :: (t ++ '>' :: rest)).take (t.length + 2 - 1)) = '/' :: t := by
    rw [show t.length + 2 - 1 = t.length + 1 from by omega, List.take_succ_cons,
      List.take_left]
  have hns : ' ' ∉ ('/' :: t) := by
    intro hm
    rcases List.mem_cons.mp hm with h1 | h2
    · exact absurd h1 (by decide)
    · exact hsp h2
  have hload : s_load_node_decl ('/' :: t) = some ('/' :: t, []) := by
    simp [s_load_node_decl, splitOnChar, splitAll_of_not_mem ' ' ('/' :: t) hns, splitCap]
  simp only [s_node_next_sibling, hm1, advanceDoc, advanceCursor, interpHandler]
  simp only [List.drop_zero, Nat.zero_le, if_true, hm2]
  simp only [List.drop_succ_cons, List.drop_zero, htake, hload, if_pos hcond, hdrop]

theorem C7_amended_root_walk_decodes_closing_tag_w :
    ('>' ∉ (['a'] : List Char)) ∧
    s_node_next_sibling ⟨'<' :: '/' :: (['a'] ++ '>' :: []), [.ret true]⟩ =
      ⟨true, ⟨[], [.ret true]⟩, [('/' :: ['a'])]⟩ :=
  ⟨by decide,
   C7_amended_root_walk_decodes_closing_tag ['a'] [] true (by decide) (by decide)⟩

/-- C3: the closing-tag match in node_as_body is an exact, forward,
first-occurrence substring search for the literal `</name>`. First conjunct:
for every well-formed single-element body `text</name>...` (text free of `<`,
name at most 256 bytes) the returned body is exactly `text` and the cursor is
advanced past the closing tag. Second conjunct: the search used by the
matcher returns the first occurrence — the pattern matches at the returned
index and at no earlier index. Third conjunct: for nested same-named
elements, the body of the outer `a` in `<a><a>inner</a></a>` is delimited by
the first textual `</a>` (the inner one), yielding body `<a>inner` and
leaving the cursor at the second `</a>`. -/
theorem C3_node_as_body_first_occurrence :
    (∀ (name text rest : List Char) (st : List Handler),
        name.length ≤ 256 → '<' ∉ text →
        aws_xml_node_as_body
            ⟨text ++ (closingTagOf name ++ rest), st⟩
            ⟨name, [], text ++ (closingTagOf name ++ rest)⟩ =
          some (⟨rest, st⟩, text)) ∧
    (∀ (pat hay : List Char) (i : Nat),
        firstOccur pat hay = some i →
        pat = (hay.drop i).take pat.length ∧
        ∀ j, j < i → pat ≠ (hay.drop j).take pat.length) ∧
    aws_xml_node_as_body ⟨"<a>inner</a></a>".data, []⟩
        ⟨['a'], [], "<a>inner</a></a>".data⟩ =
      some (⟨"</a>".data, []⟩, "<a>inner".data) := by
  refine ⟨?_, ?_, rfl⟩
  · intro name text rest st h256 hlt
    have hplen : (closingTagOf name).length = name.length + 3 := by
      simp only [closingTagOf, List.length_cons, List.length_append, List.length_nil]
    have hocc : firstOccur (closingTagOf name) (text ++ (closingTagOf name ++ rest)) =
        some text.length :=
      firstOccur_sandwich ('/' :: (name ++ ['>'])) text rest hlt
    have hlen : (text ++ (closingTagOf name ++ rest)).length =
        text.length + (name.length + 3) + rest.length := by
      simp only [List.length_append, hplen]
      omega
    simp only [aws_xml_node_as_body, s_advance_to_closing_tag]
    rw [if_neg (by rw [hlen]; omega), if_neg (by omega), hocc]
    simp only [advanceDoc, advanceCursor]
    rw [if_pos (by rw [hlen]; omega), List.drop_append (name.length + 3),
      show name.length + 3 = (closingTagOf name).length from hplen.symm,
      List.drop_left, List.take_left]
  · intro pat hay i h
    exact ⟨firstOccur_some_matches h, fun j hj => firstOccur_some_min h j hj⟩

theorem C3_node_as_body_first_occurrence_w :
    ((['a'] : List Char).length ≤ 256) ∧
    aws_xml_node_as_body ⟨"text".data ++ (closingTagOf ['a'] ++ []), []⟩
        ⟨['a'], [], "text".data ++ (closingTagOf ['a'] ++ [])⟩ =
      some (⟨[], []⟩, "text".data) :=
  ⟨by decide,
   C3_node_as_body_first_occurrence.1 ['a'] "text".data [] [] (by decide) (by decide)⟩

/-- C4: node_as_body fails (returns an error, modelled as `none`; nothing is
thrown) exactly when the closing tag cannot be located: the node name exceeds
256 bytes (so `</name>` of length name+3 exceeds the 259-byte comparison
buffer), or the literal `</name>` does not occur in the node's remaining
document. The length guard `name+3 > doc_at_body.len` of the code is
absorbed by the no-occurrence disjunct, since no string longer than the
haystack can occur in it. Second conjunct: the concrete `<a>text` document
with no closing tag (body cursor `text`) yields the error. -/
theorem C4_node_as_body_error_iff :
    (∀ (p : Parser) (n : XmlNode),
        aws_xml_node_as_body p n = none ↔
          256 < n.name.length ∨
            firstOccur (closingTagOf n.name) n.docAtBody = none) ∧
    aws_xml_node_as_body ⟨"text".data, []⟩ ⟨['a'], [], "text".data⟩ = none := by
  constructor
  · intro p n
    have hplen : (closingTagOf n.name).length = n.name.length + 3 := by
      simp only [closingTagOf, List.length_cons, List.length_append, List.length_nil]
    simp only [aws_xml_node_as_body, s_advance_to_closing_tag]
    by_cases h1 : n.name.length + 3 > n.docAtBody.length
    · rw [if_pos h1]
      have hnone : firstOccur (closingTagOf n.name) n.docAtBody = none := by
        cases hfo : firstOccur (closingTagOf n.name) n.docAtBody with
        | none => rfl
        | some i =>
          have hle := firstOccur_some_le hfo
          rw [hplen] at hle
          omega
      simp [hnone]
    · rw [if_neg h1]
      by_cases h2 : 259 < n.name.length + 3
      · rw [if_pos h2]
        constructor
        · intro _
          left
          omega
        · intro _
          rfl
      · rw [if_neg h2]
        have h256 : ¬ 256 < n.name.length := by omega
        cases hfo : firstOccur (closingTagOf n.name) n.docAtBody with
        | none => simp
        | some i => simp [h256]
  · rfl

/-- C8: parse discards leading bracketed regions that start with `<?` or `<!`
by advancing past their `>`, and the first node decoded and handed to the
root handler is the first real element. First conjunct: one step of the
preamble loop consumes exactly one `<?...>` or `<!...>` region (its interior
free of `>`). Second conjunct: on `<?xml version="1.0"?><root/>` the handler
is invoked exactly once, on the node decoded from the `<root/>` tag (its
name slice is `root/` — the self-closing slash is part of the declaration).
Third conjunct: with `<root></root>` in place of the self-closing form the
decoded name is exactly `root`. Last two conjuncts: a MalformedInput error is
returned when no `<` (document `abc`) or no `>` (document `<?xml`) can be
found while skipping. -/
theorem C8_preamble_skipped :
    (∀ (c : Char) (mid rest : List Char) (st : List Handler) (fuel : Nat),
        (c = '?' ∨ c = '!') → '>' ∉ mid →
        skipPreamble (fuel + 1) ⟨'<' :: c :: (mid ++ '>' :: rest), st⟩ =
          skipPreamble fuel ⟨rest, st⟩) ∧
    (aws_xml_parser_parse ⟨"<?xml version=\"1.0\"?><root/>".data, []⟩ (.ret true) =
      ⟨true, ⟨[], [.ret true]⟩, [['r', 'o', 'o', 't', '/']]⟩) ∧
    (aws_xml_parser_parse ⟨"<?xml version=\"1.0\"?><root></root>".data, []⟩ (.ret true) =
      ⟨true, ⟨"</root>".data, [.ret true]⟩, [['r', 'o', 'o', 't']]⟩) ∧
    (aws_xml_parser_parse ⟨"abc".data, []⟩ (.ret true)).ok = false ∧
    (aws_xml_parser_parse ⟨"<?xml".data, []⟩ (.ret true)).ok = false := by
  refine ⟨?_, rfl, rfl, rfl, rfl⟩
  intro c mid rest st fuel hc hmid
  have hcne : ¬ (c = '>') := by
    rcases hc with h | h <;> subst h <;> decide
  have hpre : '>' ∉ ('<' :: c :: mid) := by
    intro hm
    rcases List.mem_cons.mp hm with h1 | hm2
    · exact absurd h1 (by decide)
    · rcases List.mem_cons.mp hm2 with h2 | h3
      · exact hcne h2.symm
      · exact hmid h3
  have hm1 : memchr '<' ('<' :: c :: (mid ++ '>' :: rest)) = some 0 := by
    simp [memchr]
  have hm2 : memchr '>' ('<' :: c :: (mid ++ '>' :: rest)) = some (mid.length + 2) :=
    memchr_append_of_not_mem '>' ('<' :: c :: mid) rest hpre
  have hne : ('<' :: c :: (mid ++ '>' :: rest)) ≠ [] := by simp
  have hcond : mid.length + 2 + 1 ≤ ('<' :: c :: (mid ++ '>' :: rest)).length := by
    simp [List.length_cons, List.length_append]
  have hdrop : ('<' :: c :: (mid ++ '>' :: rest)).drop (mid.length + 2 + 1) = rest := by
    show (('<' :: c :: mid) ++ '>' :: rest).drop (mid.length + 2 + 1) = rest
    rw [show mid.length + 2 + 1 = ('<' :: c :: mid).length + 1 from rfl, List.drop_append 1]
    rfl
  simp only [skipPreamble, hm1, hm2, if_neg hne, advanceDoc, advanceCursor]
  simp only [List.drop_zero, Nat.zero_le, if_true, List.getD_cons_succ, List.getD_cons_zero,
    if_pos hc, Nat.sub_zero, if_pos hcond, hdrop]

theorem C8_preamble_skipped_w :
    ('>' ∉ (['a'] : List Char)) ∧
    skipPreamble 1 ⟨'<' :: '?' :: (['a'] ++ '>' :: ['x']), []⟩ = skipPreamble 0 ⟨['x'], []⟩ :=
  ⟨by decide, C8_preamble_skipped.1 '?' ['a'] ['x'] [] 0 (Or.inl rfl) (by decide)⟩

theorem advanceCursor_suffix (d : List Char) (amt : Nat) :
    List.IsSuffix (advanceCursor d amt) d := by
  unfold advanceCursor
  split
  · exact List.drop_suffix amt d
  · exact List.suffix_refl d

theorem advanceDoc_suffix (p : Parser) (amt : Nat) :
    List.IsSuffix (advanceDoc p amt).doc p.doc :=
  advanceCursor_suffix p.doc amt

theorem s_advance_to_closing_tag_suffix {p : Parser} {n : XmlNode} {p' : Parser}
    {b : List Char} (h : s_advance_to_closing_tag p n = some (p', b)) :
    List.IsSuffix p'.doc p.doc := by
  unfold s_advance_to_closing_tag at h
  split at h
  · exact absurd h (by simp)
  · split at h
    · exact absurd h (by simp)
    · split at h
      · exact absurd h (by simp)
      · simp only [Option.some.injEq, Prod.mk.injEq] at h
        obtain ⟨h1, h2⟩ := h
        rw [← h1]
        exact advanceDoc_suffix p _

theorem traverseLoop_suffix (invoke : Parser → XmlNode → Parser × Bool × List (List Char))
    (hinv : ∀ p n, List.IsSuffix ((invoke p n).1.doc) p.doc) :
    ∀ (fuel : Nat) (parent : XmlNode) (p : Parser),
      List.IsSuffix ((traverseLoop invoke parent fuel p).parser.doc) p.doc := by
  intro fuel
  induction fuel with
  | zero => intro parent p; exact List.suffix_refl _
  | succ f ih =>
    intro parent p
    simp only [traverseLoop]
    cases hm1 : memchr '<' p.doc with
    | none => exact List.suffix_refl _
    | some nextRel =>
      dsimp only
      cases hm2 : memchr '>' p.doc with
      | none => exact List.suffix_refl _
      | some endRel =>
        dsimp only
        split
        · exact advanceDoc_suffix p _
        · cases hload : s_load_node_decl ((p.doc.drop (nextRel + 1)).take
              ((if nextRel ≤ endRel then endRel - nextRel else U64 - (nextRel - endRel)) - 1)) with
          | none => exact advanceDoc_suffix p _
          | some r0 =>
            obtain ⟨nm, ats⟩ := r0
            dsimp only
            have hinv1 := hinv (advanceDoc p (endRel + 1))
              ⟨nm, ats, (advanceDoc p (endRel + 1)).doc⟩
            split
            · cases hs : s_advance_to_closing_tag
                  (invoke (advanceDoc p (endRel + 1))
                    ⟨nm, ats, (advanceDoc p (endRel + 1)).doc⟩).1 parent with
              | none =>
                exact hinv1.trans (advanceDoc_suffix p _)
              | some r1 =>
                obtain ⟨p2, body⟩ := r1
                dsimp only
                exact (ih parent p2).trans
                  ((s_advance_to_closing_tag_suffix hs).trans
                    (hinv1.trans (advanceDoc_suffix p _)))
            · exact hinv1.trans (advanceDoc_suffix p _)

theorem interpHandler_suffix :
    ∀ (h : Handler) (p : Parser) (n : XmlNode),
      List.IsSuffix ((interpHandler h p n).1.doc) p.doc := by
  intro h
  induction h with
  | ret b =>
    intro p n
    exact List.suffix_refl _
  | asBody b =>
    intro p n
    simp only [interpHandler]
    cases hs : aws_xml_node_as_body p n with
    | none => exact List.suffix_refl _
    | some r =>
      obtain ⟨p1, body⟩ := r
      exact s_advance_to_closing_tag_suffix hs
  | descend c ihc =>
    intro p n
    simp only [interpHandler]
    exact traverseLoop_suffix (interpHandler c) ihc _ n (pushStack c p)

theorem s_node_next_sibling_suffix (p : Parser) :
    List.IsSuffix ((s_node_next_sibling p).parser.doc) p.doc := by
  simp only [s_node_next_sibling]
  cases hm1 : memchr '<' p.doc with
  | none => exact List.suffix_refl _
  | some nextRel =>
    dsimp only
    cases hm2 : memchr '>' (advanceDoc p nextRel).doc with
    | none => exact advanceDoc_suffix p nextRel
    | some endRel =>
      dsimp only
      have hchain : List.IsSuffix ((advanceDoc (advanceDoc p nextRel) (endRel + 1)).doc) p.doc :=
        (advanceDoc_suffix (advanceDoc p nextRel) (endRel + 1)).trans (advanceDoc_suffix p nextRel)
      cases hload : s_load_node_decl (((advanceDoc p nextRel).doc.drop 1).take (endRel - 1)) with
      | none => exact hchain
      | some r0 =>
        obtain ⟨nm, ats⟩ := r0
        dsimp only
        cases hstack : (advanceDoc (advanceDoc p nextRel) (endRel + 1)).cbStack with
        | nil => exact hchain
        | cons h0 t0 =>
          exact (interpHandler_suffix h0 (advanceDoc (advanceDoc p nextRel) (endRel + 1))
            ⟨nm, ats, (advanceDoc (advanceDoc p nextRel) (endRel + 1)).doc⟩).trans hchain

theorem skipPreamble_suffix :
    ∀ (fuel : Nat) (p : Parser), List.IsSuffix ((skipPreamble fuel p).1.doc) p.doc := by
  intro fuel
  induction fuel with
  | zero => intro p; exact List.suffix_refl _
  | succ f ih =>
    intro p
    simp only [skipPreamble]
    split
    · exact List.suffix_refl _
    · cases hm1 : memchr '<' p.doc with
      | none => exact List.suffix_refl _
      | some startRel =>
        dsimp only
        cases hm2 : memchr '>' p.doc with
        | none => exact List.suffix_refl _
        | some locRel =>
          dsimp only
          split
          · split
            · exact (ih _).trans ((advanceDoc_suffix (advanceDoc p startRel) _).trans
                (advanceDoc_suffix p startRel))
            · exact (ih _).trans (advanceDoc_suffix p startRel)
          · exact advanceDoc_suffix p startRel

/-- C9: across every operation — parse, traverse, node_as_body, the root
sibling walk, the preamble scan, and any handler invocation — the parser
document cursor shrinks monotonically: the resulting cursor is always a
suffix of the cursor the operation started from (the start never moves
backward, the length never grows, the cursor is never rewound). Composed
with `aws_xml_parser_init`, which binds the cursor to the caller's buffer,
the cursor always remains a sub-slice (suffix) of the original
caller-supplied buffer, as the final conjunct states for parse. -/
theorem C9_cursor_monotone_suffix :
    (∀ (p : Parser) (h : Handler),
        List.IsSuffix ((aws_xml_parser_parse p h).parser.doc) p.doc) ∧
    (∀ (p : Parser) (n : XmlNode) (h : Handler),
        List.IsSuffix ((aws_xml_node_traverse p n h).parser.doc) p.doc) ∧
    (∀ (p : Parser) (n : XmlNode),
        List.IsSuffix (((aws_xml_node_as_body p n).getD (p, [])).1.doc) p.doc) ∧
    (∀ (p : Parser), List.IsSuffix ((s_node_next_sibling p).parser.doc) p.doc) ∧
    (∀ (fuel : Nat) (p : Parser), List.IsSuffix ((skipPreamble fuel p).1.doc) p.doc) ∧
    (∀ (h : Handler) (p : Parser) (n : XmlNode),
        List.IsSuffix ((interpHandler h p n).1.doc) p.doc) ∧
    (∀ (doc : List Char) (h : Handler),
        List.IsSuffix ((aws_xml_parser_parse (aws_xml_parser_init doc) h).parser.doc) doc) := by
  have hparse : ∀ (p : Parser) (h : Handler),
      List.IsSuffix ((aws_xml_parser_parse p h).parser.doc) p.doc := by
    intro p h
    simp only [aws_xml_parser_parse]
    split
    · exact (s_node_next_sibling_suffix _).trans
        (skipPreamble_suffix (p.doc.length + 1) { p with cbStack := [] })
    · exact skipPreamble_suffix (p.doc.length + 1) { p with cbStack := [] }
  refine ⟨hparse, ?_, ?_, s_node_next_sibling_suffix, skipPreamble_suffix,
    interpHandler_suffix, ?_⟩
  · intro p n h
    exact traverseLoop_suffix (interpHandler h) (interpHandler_suffix h) _ n (pushStack h p)
  · intro p n
    cases hs : aws_xml_node_as_body p n with
    | none => exact List.suffix_refl _
    | some r =>
      obtain ⟨p1, body⟩ := r
      exact s_advance_to_closing_tag_suffix hs
  · intro doc h
    exact hparse (aws_xml_parser_init doc) h

theorem parse_ret_obs (doc : List Char) (st : List Handler) (b₁ b₂ : Bool) :
    obsOutcome (aws_xml_parser_parse ⟨doc, st⟩ (.ret b₁)) =
      obsOutcome (aws_xml_parser_parse ⟨doc, st⟩ (.ret b₂)) := by
  simp only [aws_xml_parser_parse, s_node_next_sibling, pushStack, advanceDoc, advanceCursor]
  simp only [interpHandler]
  repeat' split
  all_goals rfl

theorem parse_ret_trace_le (doc : List Char) (st : List Handler) (b : Bool) :
    (aws_xml_parser_parse ⟨doc, st⟩ (.ret b)).trace.length ≤ 1 := by
  simp only [aws_xml_parser_parse, s_node_next_sibling, pushStack, advanceDoc, advanceCursor]
  simp only [interpHandler]
  repeat' split
  all_goals simp

/-- C10: the root-level sibling walk discards the root handler's boolean
return (`stack_data.cb(...)` at line 290 ignores the result). A single parse
call invokes the root handler at most once (second conjunct: the trace never
has more than one entry, so at most one root element is decoded), and the
observable result — success flag, final document cursor, and invocation
trace — is identical whatever boolean the root handler returns (first
conjunct). The third conjunct shows a root handler returning false: parse
still succeeds, with the cursor just past the root opening tag, exactly as
with a true-returning handler. -/
theorem C10_root_handler_return_discarded :
    (∀ (doc : List Char) (st : List Handler) (b₁ b₂ : Bool),
        obsOutcome (aws_xml_parser_parse ⟨doc, st⟩ (.ret b₁)) =
          obsOutcome (aws_xml_parser_parse ⟨doc, st⟩ (.ret b₂))) ∧
    (∀ (doc : List Char) (st : List Handler) (b : Bool),
        (aws_xml_parser_parse ⟨doc, st⟩ (.ret b)).trace.length ≤ 1) ∧
    aws_xml_parser_parse ⟨"<a>x</a>".data, []⟩ (.ret false) =
      ⟨true, ⟨"x</a>".data, [.ret false]⟩, [['a']]⟩ ∧
    aws_xml_parser_parse ⟨"<a>x</a>".data, []⟩ (.ret true) =
      ⟨true, ⟨"x</a>".data, [.ret true]⟩, [['a']]⟩ :=
  ⟨parse_ret_obs, parse_ret_trace_le, rfl, rfl⟩
